import Mathlib

/-!
Verification of the Huffman codec in `src/huffman_utils.rs` (crate `huffman`).

The Rust source is shallowly embedded: byte values and `u64`/`usize`
quantities are modelled as `Nat` (frequency sums and code accumulators stay
far below their machine widths for every reachable table, and the explicitly
width-sensitive `u16` computation in `read_huff_key` is modelled with Rust
debug semantics, where underflow aborts), files are lists of byte values,
bit vectors are lists of `Bool`, and `HashMap`s appear as association lists
carrying an explicit iteration order.  `Vec::sort_by` is a stable sort, and
a stable sort by a fixed comparator has a unique result, so it is modelled
by insertion sort.  Fallible computations return `RunResult`, whose
`panicked` constructor marks an abort by `panic!` (`Vec::remove` on an empty
vector, arithmetic underflow) and whose `err` constructor marks an error
value returned with `?`.
-/

/-- Outcome of running a fallible piece of the Rust code: a panic, a
returned error, or a success value. -/
inductive RunResult (α : Type) where
  | panicked : RunResult α
  | err : RunResult α
  | ok : α → RunResult α
  deriving DecidableEq

/-- The `HuffCode` struct: a byte value together with its Huffman code,
stored as an accumulated value plus a bit length. -/
structure HuffCode where
  byte : Nat
  code : Nat
  length : Nat
  deriving DecidableEq

/-- The `HuffNode` struct: a Huffman-tree node with a `HuffCode`, a
cumulative frequency and optional owned children. -/
inductive HuffNode : Type where
  | mk : HuffCode → Nat → Option HuffNode → Option HuffNode → HuffNode

/-- Field accessor for the embedded `HuffCode`. -/
def HuffNode.codeOf : HuffNode → HuffCode
  | .mk c _ _ _ => c

/-- Field accessor for the node's cumulative frequency. -/
def HuffNode.freqOf : HuffNode → Nat
  | .mk _ f _ _ => f

/-- Field accessor for the left child. -/
def HuffNode.leftOf : HuffNode → Option HuffNode
  | .mk _ _ l _ => l

/-- Field accessor for the right child. -/
def HuffNode.rightOf : HuffNode → Option HuffNode
  | .mk _ _ _ r => r

/-- The node's `code.byte` field (the tie-break byte). -/
def HuffNode.byteOf (t : HuffNode) : Nat := t.codeOf.byte

/-- `HuffNode::new`: a fresh leaf node (length 0, no children). -/
def HuffNode.new (byte frequency code : Nat) : HuffNode :=
  .mk ⟨byte, code, 0⟩ frequency none none

/-- `HuffNode::is_leaf`: both children absent. -/
def HuffNode.is_leaf : HuffNode → Bool
  | .mk _ _ left right => left.isNone && right.isNone

/-- `HuffNode::combine`: merge two nodes into an internal node whose
frequency is the sum and whose tie-break byte is the smaller of the two
children's bytes; the first argument becomes the left child. -/
def HuffNode.combine (left right : HuffNode) : HuffNode :=
  .mk ⟨if left.byteOf < right.byteOf then left.byteOf else right.byteOf, 0, 0⟩
    (left.freqOf + right.freqOf) (some left) (some right)

/-- The comparator passed to `sort_by`: frequency first, then the
tie-break byte (`a.frequency.cmp(&b.frequency).then_with(byte cmp)`). -/
def nodeLE (a b : HuffNode) : Bool :=
  a.freqOf < b.freqOf || (a.freqOf == b.freqOf && a.byteOf ≤ b.byteOf)

/-- Insert a node into a sorted list, keeping earlier elements first on
ties (stable insertion). -/
def insertNode (a : HuffNode) : List HuffNode → List HuffNode
  | [] => [a]
  | b :: l => if nodeLE a b then a :: b :: l else b :: insertNode a l

/-- `Vec::sort_by` with the `nodeLE` comparator, modelled by stable
insertion sort (a stable sort by a fixed comparator is unique). -/
def sortNodes : List HuffNode → List HuffNode
  | [] => []
  | a :: l => insertNode a (sortNodes l)

/-- The merge loop of `build_huff_tree`: while more than one node remains,
sort, remove the first two, and push their combination.  The fuel
argument makes the recursion structural; `build_huff_tree` passes the
initial pool size, which always suffices since every iteration removes
one node.  A `none` result models the `nodes.remove(0)` panic on an
empty pool. -/
def buildLoop : Nat → List HuffNode → Option HuffNode
  | 0, nodes => nodes.head?
  | fuel + 1, nodes =>
    if nodes.length > 1 then
      match sortNodes nodes with
      | a :: b :: rest => buildLoop fuel (rest ++ [HuffNode.combine a b])
      | _ => none
    else nodes.head?

/-- `HuffNode::build_huff_tree`: one leaf per (byte, frequency) pair in the
map's iteration order, then repeated minimal-pair merging. -/
def HuffNode.build_huff_tree (byte_frequency : List (Nat × Nat)) : Option HuffNode :=
  buildLoop byte_frequency.length
    (byte_frequency.map fun p => HuffNode.new p.1 p.2 0)

/-- `HuffNode::update_codes`: assign each leaf the accumulated (code,
length); descending left shifts in a 0 bit, descending right a 1 bit. -/
def HuffNode.update_codes : HuffNode → Nat → Nat → HuffNode
  | .mk code freq left right, c, l =>
    .mk (if left.isNone && right.isNone then ⟨code.byte, c, l⟩ else code) freq
      (match left with
        | some t => some (t.update_codes (2 * c) (l + 1))
        | none => none)
      (match right with
        | some t => some (t.update_codes (2 * c + 1) (l + 1))
        | none => none)

/-- `HuffNode::gather_leaves`: collect (byte, code, length) for every leaf,
in depth-first order (the map insertion order). -/
def HuffNode.gather_leaves : HuffNode → List (Nat × Nat × Nat)
  | .mk code _ left right =>
    (if left.isNone && right.isNone then [(code.byte, code.code, code.length)] else [])
      ++ (match left with
          | some t => t.gather_leaves
          | none => [])
      ++ (match right with
          | some t => t.gather_leaves
          | none => [])

/-- `HuffNode::search_tree`: walk from this node, consuming one bit per
descent, until a leaf is reached; returns the leaf byte and the advanced
cursor, or `none` when the bits run out or a child is missing. -/
def HuffNode.search_tree : HuffNode → List Bool → Nat → Option (Nat × Nat)
  | .mk code _ left right, bv, bits =>
    if left.isNone && right.isNone then some (code.byte, bits)
    else
      match bv.get? bits with
      | some b =>
        if b then
          match right with
          | some r => r.search_tree bv (bits + 1)
          | none => none
        else
          match left with
          | some l => l.search_tree bv (bits + 1)
          | none => none
      | none => none

/-- Bits of a code value, most significant first: the encoder's
`for i in (0..length).rev() { push(code & (1 << i) != 0) }`. -/
def codeBitsEmit (code length : Nat) : List Bool :=
  (List.range length).reverse.map fun i => code.testBit i

/-- `count_byte_frequency` as the abstract map it builds: the occurrence
count of each byte value in the input. -/
def count_byte_frequency (input : List Nat) (b : Nat) : Nat := input.count b

/-- An association list is a valid iteration order of the frequency map of
`input`: unique keys, each carrying its exact nonzero count, and covering
every byte occurring in `input`. -/
def enumeratesFreq (order : List (Nat × Nat)) (input : List Nat) : Prop :=
  (order.map Prod.fst).Nodup
    ∧ (∀ p ∈ order, p.2 = count_byte_frequency input p.1 ∧ 0 < p.2)
    ∧ ∀ b ∈ input, b ∈ order.map Prod.fst

instance (order : List (Nat × Nat)) (input : List Nat) :
    Decidable (enumeratesFreq order input) := by
  unfold enumeratesFreq
  infer_instance

/-- The encoding loop of `huff_encode`: for each input byte, append its
code's bits if the byte has a table entry, and silently skip it
otherwise (`if let Some(code) = byte_codes.get(..)`). -/
def huff_encode_bits (byte_codes : List (Nat × Nat × Nat)) (input : List Nat) : List Bool :=
  (input.map fun b =>
    match byte_codes.lookup b with
    | some (c, l) => codeBitsEmit c l
    | none => []).flatten

/-- `huff_encode` never reports a missing table entry: it returns `Ok`
with whatever bits the loop produced. -/
def huff_encode (byte_codes : List (Nat × Nat × Nat)) (input : List Nat) :
    RunResult (List Bool) :=
  .ok (huff_encode_bits byte_codes input)

/-- `n`-byte big-endian encoding of a value (`to_be_bytes`). -/
def beBytes : Nat → Nat → List Nat
  | 0, _ => []
  | n + 1, v => v / 256 ^ n % 256 :: beBytes n v

/-- Big-endian value of a byte list (`from_be_bytes`). -/
def beValue (bytes : List Nat) : Nat :=
  bytes.foldl (fun acc b => 256 * acc + b) 0

/-- One byte packed from up to 8 bits, most significant first, padded with
trailing 0 bits (`BitVec::to_bytes` on the final partial byte). -/
def packByte (bits : List Bool) : Nat :=
  (bits ++ List.replicate (8 - bits.length) false).foldl
    (fun acc b => 2 * acc + if b then 1 else 0) 0

/-- `BitVec::to_bytes`: pack bits into bytes, most significant bit first,
padding the final byte with 0 bits.  The fuel argument (the bit count)
makes the eight-at-a-time recursion structural. -/
def bitsToBytesAux : Nat → List Bool → List Nat
  | 0, _ => []
  | _, [] => []
  | fuel + 1, bits => packByte (bits.take 8) :: bitsToBytesAux fuel (bits.drop 8)

/-- `BitVec::to_bytes` at the top level. -/
def bitsToBytes (bits : List Bool) : List Nat :=
  bitsToBytesAux bits.length bits

/-- The bits of one byte, most significant first (`BitVec::from_bytes`). -/
def byteBits (b : Nat) : List Bool :=
  (List.range 8).reverse.map fun i => b.testBit i

/-- `BitVec::from_bytes`: all bits of a byte list, most significant bit of
each byte first. -/
def bytesToBits (bytes : List Nat) : List Bool :=
  (bytes.map byteBits).flatten

/-- `write_huff_key`: the serialized header, in the iteration order of the
frequency map — a 2-byte total header length, an 8-byte encoded bit
length, then one 9-byte record per entry. -/
def write_huff_key (byte_frequencies : List (Nat × Nat)) (huff_len : Nat) : List Nat :=
  beBytes 2 (byte_frequencies.length * 9 + 10)
    ++ beBytes 8 huff_len
    ++ (byte_frequencies.map fun p => p.1 :: beBytes 8 p.2).flatten

/-- The `HuffKey` struct parsed back from a compressed file. -/
structure HuffKey where
  key_len : Nat
  huff_len : Nat
  byte_frequency : List (Nat × Nat)
  deriving DecidableEq

/-- `HashMap::insert`: replace the entry for the key if present, append
otherwise. -/
def upsert (table : List (Nat × Nat)) (b f : Nat) : List (Nat × Nat) :=
  if table.any fun p => p.1 == b then
    table.map fun p => if p.1 == b then (b, f) else p
  else table ++ [(b, f)]

/-- The record-reading loop of `read_huff_key`: while a 9-byte chunk can
be read, insert (byte, frequency) and stop as soon as the map size has
reached the declared record count.  The fuel (the remaining byte count)
makes the recursion structural; the loop simply ends, with no error,
when fewer bytes than a full record remain. -/
def readRecordsAux : Nat → List Nat → Nat → List (Nat × Nat) → List (Nat × Nat)
  | 0, _, _, acc => acc
  | fuel + 1, bytes, num, acc =>
    if bytes.length < 9 then acc
    else
      let acc2 := upsert acc (bytes.headD 0) (beValue ((bytes.drop 1).take 8))
      if num ≤ acc2.length then acc2
      else readRecordsAux fuel (bytes.drop 9) num acc2

/-- `read_huff_key`: parse the 2-byte header length and the 8-byte encoded
bit length (an `Err` if the file is too short for either read), compute
the record count as `(key_len - 10) / 9` in `u16` arithmetic — which
aborts by underflow when the declared length is below 10 — and run the
record loop on the rest of the file. -/
def read_huff_key (file : List Nat) : RunResult HuffKey :=
  if file.length < 2 then .err
  else
    if (file.drop 2).length < 8 then .err
    else
      let key_len := beValue (file.take 2)
      let huff_len := beValue ((file.drop 2).take 8)
      if key_len < 10 then .panicked
      else
        let num_byte_codes := (key_len - 10) / 9
        .ok ⟨key_len, huff_len,
          readRecordsAux (file.drop 10).length (file.drop 10) num_byte_codes []⟩

/-- The decode loop of `huff_decode`: repeatedly search the tree from the
current cursor; stop silently when the search fails (bits exhausted),
and break without emitting when the advanced cursor has passed the
declared bit length.  The fuel argument makes the `while let` loop a
structural recursion; on a single-leaf tree the real loop never
terminates, which shows up here as the loop consuming every unit of
fuel without ever stopping. -/
def decodeLoop (root : HuffNode) (bv : List Bool) (huff_len : Nat) :
    Nat → Nat → List Nat
  | 0, _ => []
  | fuel + 1, bits =>
    match root.search_tree bv bits with
    | none => []
    | some (byte, bits2) =>
      if huff_len < bits2 then []
      else byte :: decodeLoop root bv huff_len fuel bits2

/-- `huff_decode`'s output bytes.  For a tree with at least one internal
node every loop iteration advances the cursor and continues only while
it is at most `huff_len`, so `huff_len + 2` units of fuel always
suffice. -/
def huff_decode (root : HuffNode) (bv : List Bool) (huff_len : Nat) : List Nat :=
  decodeLoop root bv huff_len (huff_len + 2) 0

/-- The code table `huff` builds: `build_huff_tree`, then `update_codes`
from `(0, 0)`, then `gather_leaves`. -/
def codeTableOf (order : List (Nat × Nat)) : List (Nat × Nat × Nat) :=
  match HuffNode.build_huff_tree order with
  | some t => (t.update_codes 0 0).gather_leaves
  | none => []

/-- The bytes `huff` writes: the serialized key followed by the packed
payload bits. -/
def huffOutputBytes (order : List (Nat × Nat)) (input : List Nat) : List Nat :=
  write_huff_key order (huff_encode_bits (codeTableOf order) input).length
    ++ bitsToBytes (huff_encode_bits (codeTableOf order) input)

/-- The `huff` pipeline on an input byte sequence, given an iteration
order of its frequency map: panics inside `build_huff_tree` when the
map is empty, otherwise writes the key and payload. -/
def huff_pipeline (order : List (Nat × Nat)) (input : List Nat) :
    RunResult (List Nat) :=
  match HuffNode.build_huff_tree order with
  | none => .panicked
  | some _ => .ok (huffOutputBytes order input)

/-- The `puff` pipeline on a compressed file's bytes: parse the key,
rebuild the tree and its codes, seek to `key_len`, and run the decode
loop over the remaining bits.  Note that it returns `Ok` regardless of
whether the declared bit length was actually reached. -/
def puff_pipeline (file : List Nat) : RunResult (List Nat) :=
  match read_huff_key file with
  | .panicked => .panicked
  | .err => .err
  | .ok key =>
    match HuffNode.build_huff_tree key.byte_frequency with
    | none => .panicked
    | some t =>
      .ok (huff_decode (t.update_codes 0 0) (bytesToBits (file.drop key.key_len))
        key.huff_len)

/-- List-of-bools prefix: `xs` is an initial segment of `ys`. -/
def bitPrefixOf (xs ys : List Bool) : Prop := ys.take xs.length = xs

instance (xs ys : List Bool) : Decidable (bitPrefixOf xs ys) := by
  unfold bitPrefixOf
  infer_instance

/-- The emitted bit string of a (byte, code, length) table entry. -/
def entryBits (e : Nat × Nat × Nat) : List Bool := codeBitsEmit e.2.1 e.2.2

/-- `search_tree` on a leaf returns the leaf byte without moving the
cursor. -/
theorem search_tree_leaf (code : HuffCode) (f : Nat) (bv : List Bool) (bits : Nat) :
    (HuffNode.mk code f none none).search_tree bv bits = some (code.byte, bits) := by
  simp [HuffNode.search_tree]

/-- On a single-leaf tree with declared bit length 0 the decode loop never
stops: it emits the leaf byte once per unit of fuel, for any bit
sequence — the model of the non-terminating `while let` loop. -/
theorem decodeLoop_single_leaf (code : HuffCode) (f : Nat) (bv : List Bool) :
    ∀ fuel, decodeLoop (HuffNode.mk code f none none) bv 0 fuel 0
      = List.replicate fuel code.byte := by
  intro fuel
  induction fuel with
  | zero => simp [decodeLoop]
  | succ n ih => simp [decodeLoop, search_tree_leaf, List.replicate_succ, ih]

/-- C1: the claim `puff(huff(input)) == input` for every byte sequence
fails already at the empty sequence: the frequency map is empty, so
`build_huff_tree` calls `Vec::remove(0)` on an empty vector and the
whole `huff` pipeline panics before writing anything — no compressed
form exists to decompress. -/
theorem c1_empty_input_panics :
    huff_pipeline [] [] = RunResult.panicked ∧ enumeratesFreq [] [] :=
  ⟨rfl, by decide⟩

/-- C2: for the single-distinct-byte input `[65, 65, 65]` the code
assigner stores code value 0 with length 0 (not length ≥ 1), the
encoder therefore emits 0 bits instead of one bit per occurrence, and
the decode loop on the one-leaf tree never terminates (it emits the
byte once per unit of fuel forever) instead of recovering the input. -/
theorem c2_single_symbol_code_bug :
    HuffNode.build_huff_tree [(65, 3)] = some (HuffNode.new 65 3 0)
    ∧ codeTableOf [(65, 3)] = [(65, 0, 0)]
    ∧ huff_encode_bits (codeTableOf [(65, 3)]) [65, 65, 65] = []
    ∧ ∀ fuel bv, decodeLoop (HuffNode.new 65 3 0) bv 0 fuel 0
        = List.replicate fuel 65 :=
  ⟨rfl, rfl, rfl, fun fuel bv => decodeLoop_single_leaf ⟨65, 0, 0⟩ 3 bv fuel⟩

/-- C4: truncating a compressed file's payload does not make decoding
fail.  The file for input `[65, 66]` is 29 bytes (28 header bytes and
one payload byte holding the 2 declared bits); dropping the payload
byte leaves the declared `huff_len = 2` unreachable, yet `puff` returns
success with truncated (here empty) output instead of a format error. -/
theorem c4_truncation_not_detected :
    puff_pipeline (huffOutputBytes [(65, 1), (66, 1)] [65, 66])
      = RunResult.ok [65, 66]
    ∧ puff_pipeline ((huffOutputBytes [(65, 1), (66, 1)] [65, 66]).take 28)
      = RunResult.ok []
    ∧ (huffOutputBytes [(65, 1), (66, 1)] [65, 66]).length = 29 := by
  refine ⟨by decide, by decide, by decide⟩

/-- C5: a header declaring `key_len = 19` (one 9-byte record) on a file
that ends right after the 10 fixed header bytes parses back zero
records, and `read_huff_key` still returns `Ok` with an empty table —
no format error is reported for the inconsistency. -/
theorem c5_short_header_not_detected :
    read_huff_key [0, 19, 0, 0, 0, 0, 0, 0, 0, 2]
      = RunResult.ok ⟨19, 2, []⟩ := by
  decide

/-- C6: a byte with no `CodeTable` entry is silently skipped by the
encoder, which still returns `Ok`: with a table holding only byte 66,
input `[65]` encodes to zero bits with no reported error, while `[66]`
encodes normally. -/
theorem c6_missing_entry_skipped :
    huff_encode [(66, 0, 1)] [65] = RunResult.ok []
    ∧ huff_encode [(66, 0, 1)] [66] = RunResult.ok [false] := by
  refine ⟨by decide, by decide⟩

/-- C3 counterexample: two valid iteration orders of the frequency map of
input `[65, 66]` produce different compressed bytes (the byte/frequency
records appear in different orders), so encoding the same input twice
is not byte-identical as the claim states. -/
theorem c3_header_order_differs :
    enumeratesFreq [(65, 1), (66, 1)] [65, 66]
    ∧ enumeratesFreq [(66, 1), (65, 1)] [65, 66]
    ∧ ([(65, 1), (66, 1)] : List (Nat × Nat)).Perm [(66, 1), (65, 1)]
    ∧ huffOutputBytes [(65, 1), (66, 1)] [65, 66]
      ≠ huffOutputBytes [(66, 1), (65, 1)] [65, 66] := by
  refine ⟨by decide, by decide, by decide, by decide⟩

/-- C10: whenever the first two file bytes decode to a declared header
length below 10 and the 10 fixed header bytes are present, the `u16`
subtraction `key_len - 10` underflows and `read_huff_key` aborts by
panic instead of reporting a format error. -/
theorem c10_underflow_panics (file : List Nat) (hlen : 10 ≤ file.length)
    (hk : beValue (file.take 2) < 10) :
    read_huff_key file = RunResult.panicked := by
  unfold read_huff_key
  have h1 : ¬ file.length < 2 := by omega
  have h8 : ¬ (file.drop 2).length < 8 := by
    simp only [List.length_drop]
    omega
  simp [h1, h8, hk]
  omega

/-- Witness for C10 at the concrete file `[0, 5, 0, 0, 0, 0, 0, 0, 0, 0]`,
which declares `key_len = 5 < 10`. -/
theorem c10_underflow_panics_witness :
    10 ≤ ([0, 5, 0, 0, 0, 0, 0, 0, 0, 0] : List Nat).length
    ∧ beValue (([0, 5, 0, 0, 0, 0, 0, 0, 0, 0] : List Nat).take 2) < 10
    ∧ read_huff_key [0, 5, 0, 0, 0, 0, 0, 0, 0, 0] = RunResult.panicked :=
  ⟨by decide, by decide,
    c10_underflow_panics [0, 5, 0, 0, 0, 0, 0, 0, 0, 0] (by decide) (by decide)⟩

/-- The sort key of a node: cumulative frequency, then tie-break byte. -/
def nodeKey (n : HuffNode) : Nat × Nat := (n.freqOf, n.byteOf)

/-- Unfolding of the comparator into arithmetic. -/
theorem nodeLE_iff (a b : HuffNode) :
    nodeLE a b = true
      ↔ a.freqOf < b.freqOf ∨ (a.freqOf = b.freqOf ∧ a.byteOf ≤ b.byteOf) := by
  simp [nodeLE, Bool.or_eq_true, Bool.and_eq_true, decide_eq_true_iff]

/-- The comparator is total. -/
theorem nodeLE_total (a b : HuffNode) (h : nodeLE a b = false) : nodeLE b a = true := by
  rw [nodeLE_iff]
  rcases Bool.eq_false_iff.mp h with _
  have h2 : ¬(a.freqOf < b.freqOf ∨ (a.freqOf = b.freqOf ∧ a.byteOf ≤ b.byteOf)) := by
    rw [← nodeLE_iff]
    simp [h]
  omega

/-- The comparator is transitive. -/
theorem nodeLE_trans (a b c : HuffNode) (h1 : nodeLE a b = true)
    (h2 : nodeLE b c = true) : nodeLE a c = true := by
  rw [nodeLE_iff] at h1 h2 ⊢
  omega

/-- Two nodes below each other in the comparator share a sort key. -/
theorem nodeLE_antisymm (a b : HuffNode) (h1 : nodeLE a b = true)
    (h2 : nodeLE b a = true) : nodeKey a = nodeKey b := by
  rw [nodeLE_iff] at h1 h2
  unfold nodeKey
  have hf : a.freqOf = b.freqOf := by omega
  have hb : a.byteOf = b.byteOf := by omega
  rw [hf, hb]

/-- Inserting keeps the list a permutation of the cons. -/
theorem insertNode_perm (a : HuffNode) (l : List HuffNode) :
    (insertNode a l).Perm (a :: l) := by
  induction l with
  | nil => simp [insertNode]
  | cons b t ih =>
    by_cases h : nodeLE a b
    · simp [insertNode, h]
    · simp only [insertNode, h, if_neg, Bool.false_eq_true, if_false]
      exact (ih.cons b).trans (List.Perm.swap a b t)

/-- Sorting keeps the list a permutation of the input. -/
theorem sortNodes_perm (l : List HuffNode) : (sortNodes l).Perm l := by
  induction l with
  | nil => simp [sortNodes]
  | cons a t ih => exact (insertNode_perm a (sortNodes t)).trans (ih.cons a)

/-- Membership in an insertion. -/
theorem mem_insertNode {x a : HuffNode} {l : List HuffNode} :
    x ∈ insertNode a l ↔ x = a ∨ x ∈ l := by
  rw [(insertNode_perm a l).mem_iff]
  simp

/-- Insertion preserves sortedness. -/
theorem insertNode_sorted (a : HuffNode) (l : List HuffNode)
    (h : l.Pairwise fun x y => nodeLE x y = true) :
    (insertNode a l).Pairwise fun x y => nodeLE x y = true := by
  induction l with
  | nil => simp [insertNode]
  | cons b t ih =>
    rcases List.pairwise_cons.mp h with ⟨hb, ht⟩
    by_cases hab : nodeLE a b
    · simp only [insertNode, hab, if_true]
      refine List.pairwise_cons.mpr ⟨?_, h⟩
      intro x hx
      rcases List.mem_cons.mp hx with rfl | hx
      · exact hab
      · exact nodeLE_trans a b x hab (hb x hx)
    · simp only [insertNode, hab, Bool.false_eq_true, if_false]
      refine List.pairwise_cons.mpr ⟨?_, ih ht⟩
      intro x hx
      rcases mem_insertNode.mp hx with rfl | hx
      · exact nodeLE_total x b (Bool.eq_false_iff.mpr hab)
      · exact hb x hx

/-- The sorted pool is sorted under the comparator. -/
theorem sortNodes_sorted (l : List HuffNode) :
    (sortNodes l).Pairwise fun x y => nodeLE x y = true := by
  induction l with
  | nil => simp [sortNodes]
  | cons a t ih => exact insertNode_sorted a (sortNodes t) ih

/-- Two sorted permutations of each other with duplicate-free sort keys
are equal: the stable sort of a pool is canonical. -/
theorem sorted_perm_nodup_eq :
    ∀ (l1 l2 : List HuffNode), l1.Perm l2
      → (l1.Pairwise fun x y => nodeLE x y = true)
      → (l2.Pairwise fun x y => nodeLE x y = true)
      → (l1.map nodeKey).Nodup → l1 = l2 := by
  intro l1
  induction l1 with
  | nil => intro l2 hp _ _ _; exact (hp.nil_eq).symm ▸ rfl
  | cons a t1 ih =>
    intro l2 hp hs1 hs2 hnd
    cases l2 with
    | nil => exact absurd hp.symm.nil_eq (by simp)
    | cons b t2 =>
      rcases List.pairwise_cons.mp hs1 with ⟨ha1, ht1⟩
      rcases List.pairwise_cons.mp hs2 with ⟨hb2, ht2⟩
      have hab : a = b := by
        by_contra hne
        have ha2 : a ∈ t2 := by
          rcases List.mem_cons.mp (hp.mem_iff.mp (List.mem_cons_self a t1)) with h | h
          · exact absurd h hne
          · exact h
        have hb1 : b ∈ t1 := by
          rcases List.mem_cons.mp (hp.symm.mem_iff.mp (List.mem_cons_self b t2)) with h | h
          · exact absurd h.symm hne
          · exact h
        have hkey : nodeKey a = nodeKey b :=
          nodeLE_antisymm a b (ha1 b hb1) (hb2 a ha2)
        have : nodeKey a ∉ t1.map nodeKey := (List.nodup_cons.mp (by simpa using hnd)).1
        exact this (hkey ▸ List.mem_map_of_mem nodeKey hb1)
      subst hab
      have := ih t2 hp.cons_inv ht1 ht2 (List.nodup_cons.mp (by simpa using hnd)).2
      rw [this]

/-- Canonicality of the pool sort: permuted pools with duplicate-free sort
keys sort to the same list. -/
theorem sortNodes_canonical (p1 p2 : List HuffNode) (hp : p1.Perm p2)
    (hnd : (p1.map nodeKey).Nodup) : sortNodes p1 = sortNodes p2 := by
  refine sorted_perm_nodup_eq _ _ ?_ (sortNodes_sorted p1) (sortNodes_sorted p2) ?_
  · exact (sortNodes_perm p1).trans (hp.trans (sortNodes_perm p2).symm)
  · exact (((sortNodes_perm p1).map nodeKey).nodup_iff).mpr hnd

/-- The merge loop started on permuted pools (with duplicate-free sort
keys and matching fuel) produces the same tree: after the very first
sort the two runs coincide. -/
theorem buildLoop_perm (p1 p2 : List HuffNode) (hp : p1.Perm p2)
    (hnd : (p1.map nodeKey).Nodup) :
    buildLoop p1.length p1 = buildLoop p2.length p2 := by
  have hlen := hp.length_eq
  rw [← hlen]
  cases hn : p1.length with
  | zero =>
    have h1 : p1 = [] := List.length_eq_zero.mp hn
    have h2 : p2 = [] := List.length_eq_zero.mp (hlen ▸ hn)
    rw [h1, h2]
  | succ m =>
    have hl2 : p2.length = m + 1 := hlen ▸ hn
    cases m with
    | zero =>
      rcases List.length_eq_one.mp hn with ⟨a, ha⟩
      rcases List.length_eq_one.mp hl2 with ⟨b, hb⟩
      have : p1 = p2 := by
        rw [ha, hb]
        exact List.perm_singleton.mp (hb ▸ (ha ▸ hp))
      rw [this]
    | succ k =>
      have hgt1 : p1.length > 1 := by omega
      have hgt2 : p2.length > 1 := by omega
      show buildLoop (k + 1 + 1) p1 = buildLoop (k + 1 + 1) p2
      rw [buildLoop, buildLoop, if_pos hgt1, if_pos hgt2,
        sortNodes_canonical p2 p1 hp.symm ((hp.map nodeKey).nodup_iff.mp hnd)]

/-- `build_huff_tree` is invariant under the map's iteration order when
the byte keys are distinct. -/
theorem build_huff_tree_perm (l1 l2 : List (Nat × Nat)) (hp : l1.Perm l2)
    (hnd : (l1.map Prod.fst).Nodup) :
    HuffNode.build_huff_tree l1 = HuffNode.build_huff_tree l2 := by
  unfold HuffNode.build_huff_tree
  have hkeys : ((l1.map fun p => HuffNode.new p.1 p.2 0).map nodeKey).Nodup := by
    have hswap : ((l1.map fun p => HuffNode.new p.1 p.2 0).map nodeKey).map Prod.snd
        = l1.map Prod.fst := by
      simp [List.map_map, Function.comp, nodeKey, HuffNode.new, HuffNode.freqOf,
        HuffNode.byteOf, HuffNode.codeOf]
    exact List.Nodup.of_map Prod.snd (hswap ▸ hnd)
  have := buildLoop_perm (l1.map fun p => HuffNode.new p.1 p.2 0)
    (l2.map fun p => HuffNode.new p.1 p.2 0) (hp.map _) hkeys
  simpa [List.length_map] using this

/-- C3 amended: the payload bits (hence the declared bit length), the
declared header length and the multiset of byte/frequency records are
the same for any two iteration orders of the same frequency table; only
the record order may differ between runs. -/
theorem c3_payload_and_lengths_deterministic (l1 l2 : List (Nat × Nat))
    (input : List Nat) (hp : l1.Perm l2) (hnd : (l1.map Prod.fst).Nodup) :
    codeTableOf l1 = codeTableOf l2
    ∧ huff_encode_bits (codeTableOf l1) input
      = huff_encode_bits (codeTableOf l2) input
    ∧ beBytes 2 (l1.length * 9 + 10) = beBytes 2 (l2.length * 9 + 10)
    ∧ (l1.map fun p => p.1 :: beBytes 8 p.2).Perm
        (l2.map fun p => p.1 :: beBytes 8 p.2) := by
  have hct : codeTableOf l1 = codeTableOf l2 := by
    unfold codeTableOf
    rw [build_huff_tree_perm l1 l2 hp hnd]
  exact ⟨hct, by rw [hct], by rw [hp.length_eq], hp.map _⟩

/-- Witness for the amended C3 at the two iteration orders of the
frequency table of `[65, 66]`. -/
theorem c3_payload_and_lengths_deterministic_witness :
    (([(65, 1), (66, 1)] : List (Nat × Nat)).Perm [(66, 1), (65, 1)]
      ∧ (([(65, 1), (66, 1)] : List (Nat × Nat)).map Prod.fst).Nodup)
    ∧ huff_encode_bits (codeTableOf [(65, 1), (66, 1)]) [65, 66]
      = huff_encode_bits (codeTableOf [(66, 1), (65, 1)]) [65, 66] :=
  ⟨⟨by decide, by decide⟩,
    (c3_payload_and_lengths_deterministic [(65, 1), (66, 1)] [(66, 1), (65, 1)]
      [65, 66] (by decide) (by decide)).2.1⟩

/-- Structural well-formedness of a built tree: every internal node's
frequency is the sum of its children's and its tie-break byte is the
smaller of its children's tie-break bytes; nodes with exactly one child
never occur. -/
def wfNode : HuffNode → Bool
  | .mk _ _ none none => true
  | .mk c f (some l) (some r) =>
      (f == l.freqOf + r.freqOf) && (c.byte == min l.byteOf r.byteOf)
        && wfNode l && wfNode r
  | _ => false

/-- The byte values of a tree's leaves, in depth-first order. -/
def leafBytes (t : HuffNode) : List Nat := t.gather_leaves.map fun e => e.1

/-- `gather_leaves` of an internal node concatenates the children's
leaves. -/
theorem gather_leaves_internal (c : HuffCode) (f : Nat) (l r : HuffNode) :
    (HuffNode.mk c f (some l) (some r)).gather_leaves
      = l.gather_leaves ++ r.gather_leaves := by
  simp [HuffNode.gather_leaves]

/-- `combine` preserves well-formedness. -/
theorem combine_wf (a b : HuffNode) (ha : wfNode a = true) (hb : wfNode b = true) :
    wfNode (a.combine b) = true := by
  have hbyte : (if a.byteOf < b.byteOf then a.byteOf else b.byteOf)
      = min a.byteOf b.byteOf := by
    rcases Nat.lt_or_ge a.byteOf b.byteOf with h | h
    · rw [if_pos h, Nat.min_eq_left h.le]
    · rw [if_neg (Nat.not_lt.mpr h), Nat.min_eq_right h]
  simp [HuffNode.combine, wfNode, ha, hb, hbyte]

/-- A `some` result of `head?` is a member. -/
theorem mem_of_headq {α : Type} {l : List α} {a : α} (h : l.head? = some a) :
    a ∈ l := by
  cases l with
  | nil => simp at h
  | cons b t =>
    simp only [List.head?] at h
    rw [Option.some_inj] at h
    rw [← h]
    exact List.mem_cons_self b t

/-- Every tree the merge loop returns from a pool of well-formed nodes is
well-formed. -/
theorem buildLoop_wf : ∀ (fuel : Nat) (pool : List HuffNode),
    (∀ x ∈ pool, wfNode x = true) → ∀ t, buildLoop fuel pool = some t →
      wfNode t = true := by
  intro fuel
  induction fuel with
  | zero =>
    intro pool hwf t ht
    exact hwf t (mem_of_headq ht)
  | succ n ih =>
    intro pool hwf t ht
    rw [buildLoop] at ht
    by_cases hgt : pool.length > 1
    · rw [if_pos hgt] at ht
      cases hs : sortNodes pool with
      | nil => rw [hs] at ht; exact absurd ht (by simp)
      | cons a rest0 =>
        cases rest0 with
        | nil => rw [hs] at ht; exact absurd ht (by simp)
        | cons b rest =>
          rw [hs] at ht
          have hmem : ∀ x ∈ sortNodes pool, wfNode x = true := by
            intro x hx
            exact hwf x ((sortNodes_perm pool).mem_iff.mp hx)
          refine ih (rest ++ [a.combine b]) ?_ t ht
          intro x hx
          rcases List.mem_append.mp hx with hx | hx
          · exact hmem x (hs ▸ List.mem_cons_of_mem a (List.mem_cons_of_mem b hx))
          · have hxc : x = a.combine b := by simpa using hx
            rw [hxc]
            exact combine_wf a b (hmem a (hs ▸ List.mem_cons_self a _))
              (hmem b (hs ▸ List.mem_cons_of_mem a (List.mem_cons_self b _)))
    · rw [if_neg hgt] at ht
      exact hwf t (mem_of_headq ht)

/-- In a well-formed tree the tie-break byte of every node is the minimum
byte value among its leaves (and occurs among them). -/
theorem wf_min : ∀ t : HuffNode, wfNode t = true →
    t.byteOf ∈ leafBytes t ∧ ∀ b ∈ leafBytes t, t.byteOf ≤ b
  | .mk c f none none => by
    intro _
    simp [leafBytes, HuffNode.gather_leaves, HuffNode.byteOf, HuffNode.codeOf]
  | .mk c f (some l) none => by
    intro h
    simp [wfNode] at h
  | .mk c f none (some r) => by
    intro h
    simp [wfNode] at h
  | .mk c f (some l) (some r) => by
    intro h
    simp only [wfNode, Bool.and_eq_true, beq_iff_eq] at h
    obtain ⟨⟨⟨hf, hmin⟩, hl⟩, hr⟩ := h
    have IHl := wf_min l hl
    have IHr := wf_min r hr
    have hlb : leafBytes (.mk c f (some l) (some r)) = leafBytes l ++ leafBytes r := by
      simp [leafBytes, gather_leaves_internal]
    have hbyte : (HuffNode.mk c f (some l) (some r)).byteOf = min l.byteOf r.byteOf := by
      simpa [HuffNode.byteOf, HuffNode.codeOf] using hmin
    rw [hlb, hbyte]
    constructor
    · rcases Nat.le_total l.byteOf r.byteOf with hle | hle
      · rw [Nat.min_eq_left hle]
        exact List.mem_append_left _ IHl.1
      · rw [Nat.min_eq_right hle]
        exact List.mem_append_right _ IHr.1
    · intro b hb
      rcases List.mem_append.mp hb with hb | hb
      · exact le_trans (Nat.min_le_left _ _) (IHl.2 b hb)
      · exact le_trans (Nat.min_le_right _ _) (IHr.2 b hb)

/-- C7: tree construction is the repeated merge of the two minimal nodes
under the (frequency, minimum-contained-byte) order with the first
selected as left child — as embedded in `buildLoop`, `sortNodes` and
`combine` — and for any iteration order of a duplicate-free table it
yields the same tree, every internal node of which carries the sum of
its children's frequencies and, as tie-break byte, the minimum byte of
its subtree. -/
theorem c7_tree_build_deterministic (l1 l2 : List (Nat × Nat)) (hp : l1.Perm l2)
    (hnd : (l1.map Prod.fst).Nodup) :
    HuffNode.build_huff_tree l1 = HuffNode.build_huff_tree l2
    ∧ ∀ t, HuffNode.build_huff_tree l1 = some t →
        wfNode t = true ∧ t.byteOf ∈ leafBytes t ∧ ∀ b ∈ leafBytes t, t.byteOf ≤ b := by
  refine ⟨build_huff_tree_perm l1 l2 hp hnd, ?_⟩
  intro t ht
  have hwf : wfNode t = true := by
    refine buildLoop_wf l1.length (l1.map fun p => HuffNode.new p.1 p.2 0) ?_ t ?_
    · intro x hx
      rcases List.mem_map.mp hx with ⟨p, _, hpx⟩
      rw [← hpx]
      rfl
    · rw [← ht]
      rfl
  exact ⟨hwf, (wf_min t hwf).1, (wf_min t hwf).2⟩

/-- Witness for C7 on the spec's tie-break table `{A:2, B:2, C:1, D:1}` in
two iteration orders. -/
theorem c7_tree_build_deterministic_witness :
    (([(65, 2), (66, 2), (67, 1), (68, 1)] : List (Nat × Nat)).Perm
        [(68, 1), (67, 1), (66, 2), (65, 2)]
      ∧ (([(65, 2), (66, 2), (67, 1), (68, 1)] : List (Nat × Nat)).map Prod.fst).Nodup)
    ∧ (HuffNode.build_huff_tree [(65, 2), (66, 2), (67, 1), (68, 1)]
        = HuffNode.build_huff_tree [(68, 1), (67, 1), (66, 2), (65, 2)]
      ∧ ∀ t, HuffNode.build_huff_tree [(65, 2), (66, 2), (67, 1), (68, 1)] = some t →
          wfNode t = true ∧ t.byteOf ∈ leafBytes t ∧ ∀ b ∈ leafBytes t, t.byteOf ≤ b) :=
  ⟨⟨by decide, by decide⟩,
    c7_tree_build_deterministic [(65, 2), (66, 2), (67, 1), (68, 1)]
      [(68, 1), (67, 1), (66, 2), (65, 2)] (by decide) (by decide)⟩

/-- The emitted bit string of a code has exactly `length` bits. -/
theorem codeBitsEmit_length (c l : Nat) : (codeBitsEmit c l).length = l := by
  simp [codeBitsEmit]

/-- One more emitted bit prepends the next-higher tested bit. -/
theorem codeBitsEmit_succ (c l : Nat) :
    codeBitsEmit c (l + 1) = c.testBit l :: codeBitsEmit c l := by
  simp [codeBitsEmit, List.range_succ]

/-- Splitting an emitted bit string: the high `a` bits are the emission of
the value shifted right by `b`. -/
theorem codeBitsEmit_split (c a b : Nat) :
    codeBitsEmit c (a + b) = codeBitsEmit (c / 2 ^ b) a ++ codeBitsEmit c b := by
  induction a with
  | zero => simp [codeBitsEmit]
  | succ n ih =>
    have h1 : n + 1 + b = (n + b) + 1 := by omega
    rw [h1, codeBitsEmit_succ, ih, codeBitsEmit_succ, List.cons_append]
    congr 1
    rw [← Nat.shiftRight_eq_div_pow, Nat.testBit_shiftRight, Nat.add_comm]

/-- Bitwise agreement below `l` of values with equal emissions. -/
theorem codeBitsEmit_testBit_eq {a b : Nat} :
    ∀ l, codeBitsEmit a l = codeBitsEmit b l → ∀ i, i < l → a.testBit i = b.testBit i := by
  intro l
  induction l with
  | zero => intro _ i hi; omega
  | succ n ih =>
    intro h i hi
    rw [codeBitsEmit_succ, codeBitsEmit_succ] at h
    rcases List.cons.injEq _ _ _ _ ▸ h with ⟨h1, h2⟩
    rcases Nat.lt_or_ge i n with h3 | h3
    · exact ih h2 i h3
    · have hin : i = n := by omega
      rw [hin]
      exact h1

/-- Emission is injective on values below `2 ^ length`. -/
theorem codeBitsEmit_inj {a b l : Nat} (ha : a < 2 ^ l) (hb : b < 2 ^ l)
    (h : codeBitsEmit a l = codeBitsEmit b l) : a = b := by
  apply Nat.eq_of_testBit_eq
  intro i
  rcases Nat.lt_or_ge i l with hi | hi
  · exact codeBitsEmit_testBit_eq l h i hi
  · have hpow : 2 ^ l ≤ 2 ^ i := Nat.pow_le_pow_right (by omega) hi
    rw [Nat.testBit_lt_two_pow (by omega), Nat.testBit_lt_two_pow (by omega)]

/-- Taking the first `l1` emitted bits emits the right-shifted value. -/
theorem codeBitsEmit_take {c l1 l2 : Nat} (h : l1 ≤ l2) :
    (codeBitsEmit c l2).take l1 = codeBitsEmit (c / 2 ^ (l2 - l1)) l1 := by
  conv_lhs => rw [show l2 = l1 + (l2 - l1) by omega, codeBitsEmit_split]
  exact List.take_left' (codeBitsEmit_length _ _)

/-- A bit-string prefix between emissions of in-range codes forces the
arithmetic relation `c2 / 2 ^ (l2 - l1) = c1`. -/
theorem emit_bitPrefix_arith {c1 l1 c2 l2 : Nat} (h1 : c1 < 2 ^ l1)
    (h2 : c2 < 2 ^ l2)
    (hp : bitPrefixOf (codeBitsEmit c1 l1) (codeBitsEmit c2 l2)) :
    l1 ≤ l2 ∧ c2 / 2 ^ (l2 - l1) = c1 := by
  unfold bitPrefixOf at hp
  rw [codeBitsEmit_length] at hp
  have hle : l1 ≤ l2 := by
    have hlen := congrArg List.length hp
    simp [codeBitsEmit_length, List.length_take] at hlen
    omega
  refine ⟨hle, ?_⟩
  rw [codeBitsEmit_take hle] at hp
  refine codeBitsEmit_inj ?_ h1 hp
  apply Nat.div_lt_of_lt_mul
  rw [← pow_add]
  have : l2 - l1 + l1 = l2 := by omega
  rw [this]
  exact h2

/-- Invariant of a gathered entry below accumulator `(c, l)`: its length
extends `l` and its high bits are exactly `c`. -/
def goodEntry (l c : Nat) (e : Nat × Nat × Nat) : Prop :=
  l ≤ e.2.2 ∧ e.2.1 / 2 ^ (e.2.2 - l) = c ∧ e.2.1 < 2 ^ e.2.2

/-- Two table entries neither of whose emitted bit strings is a prefix of
the other's. -/
def freePair (e1 e2 : Nat × Nat × Nat) : Prop :=
  ¬ bitPrefixOf (entryBits e1) (entryBits e2)
    ∧ ¬ bitPrefixOf (entryBits e2) (entryBits e1)

/-- Stepping the entry invariant up one level. -/
theorem goodEntry_up {e : Nat × Nat × Nat} {l c d : Nat}
    (h : goodEntry (l + 1) d e) (hd : d / 2 = c) : goodEntry l c e := by
  obtain ⟨ha, hb, hbound⟩ := h
  refine ⟨by omega, ?_, hbound⟩
  have hsplit : e.2.2 - l = (e.2.2 - (l + 1)) + 1 := by omega
  rw [hsplit, pow_succ, ← Nat.div_div_eq_div_mul, hb, hd]

/-- Entries from different subtrees are never prefix-comparable: their
high bits differ at the branch level. -/
theorem cross_freePair {e1 e2 : Nat × Nat × Nat} {l c : Nat}
    (g1 : goodEntry (l + 1) (2 * c) e1) (g2 : goodEntry (l + 1) (2 * c + 1) e2) :
    freePair e1 e2 := by
  obtain ⟨ha1, hb1, hq1⟩ := g1
  obtain ⟨ha2, hb2, hq2⟩ := g2
  constructor
  · intro hp
    simp only [entryBits] at hp
    obtain ⟨hle, hdiv⟩ := emit_bitPrefix_arith hq1 hq2 hp
    have hsplit : e2.2.2 - (l + 1) = (e2.2.2 - e1.2.2) + (e1.2.2 - (l + 1)) := by omega
    have hcontra : e2.2.1 / 2 ^ (e2.2.2 - (l + 1)) = e1.2.1 / 2 ^ (e1.2.2 - (l + 1)) := by
      rw [hsplit, pow_add, ← Nat.div_div_eq_div_mul, hdiv]
    rw [hb2, hb1] at hcontra
    omega
  · intro hp
    simp only [entryBits] at hp
    obtain ⟨hle, hdiv⟩ := emit_bitPrefix_arith hq2 hq1 hp
    have hsplit : e1.2.2 - (l + 1) = (e1.2.2 - e2.2.2) + (e2.2.2 - (l + 1)) := by omega
    have hcontra : e1.2.1 / 2 ^ (e1.2.2 - (l + 1)) = e2.2.1 / 2 ^ (e2.2.2 - (l + 1)) := by
      rw [hsplit, pow_add, ← Nat.div_div_eq_div_mul, hdiv]
    rw [hb2, hb1] at hcontra
    omega

/-- Master lemma for `update_codes` followed by `gather_leaves`: every
gathered entry extends the accumulator, and no two gathered entries are
prefix-comparable. -/
theorem update_gather_spec : ∀ (t : HuffNode) (c l : Nat), c < 2 ^ l →
    (∀ e ∈ (t.update_codes c l).gather_leaves, goodEntry l c e)
    ∧ ((t.update_codes c l).gather_leaves).Pairwise freePair
  | .mk code f none none, c, l => by
    intro hc
    constructor
    · intro e he
      simp [HuffNode.update_codes, HuffNode.gather_leaves] at he
      rw [he]
      exact ⟨Nat.le_refl l, by simp, hc⟩
    · simp [HuffNode.update_codes, HuffNode.gather_leaves]
  | .mk code f (some lt) none, c, l => by
    intro hc
    have hpow : 2 ^ (l + 1) = 2 * 2 ^ l := by rw [pow_succ]; omega
    have IH := update_gather_spec lt (2 * c) (l + 1) (by omega)
    have hg : ((HuffNode.mk code f (some lt) none).update_codes c l).gather_leaves
        = (lt.update_codes (2 * c) (l + 1)).gather_leaves := by
      simp [HuffNode.update_codes, HuffNode.gather_leaves]
    rw [hg]
    exact ⟨fun e he => goodEntry_up (IH.1 e he) (by omega), IH.2⟩
  | .mk code f none (some rt), c, l => by
    intro hc
    have hpow : 2 ^ (l + 1) = 2 * 2 ^ l := by rw [pow_succ]; omega
    have IH := update_gather_spec rt (2 * c + 1) (l + 1) (by omega)
    have hg : ((HuffNode.mk code f none (some rt)).update_codes c l).gather_leaves
        = (rt.update_codes (2 * c + 1) (l + 1)).gather_leaves := by
      simp [HuffNode.update_codes, HuffNode.gather_leaves]
    rw [hg]
    exact ⟨fun e he => goodEntry_up (IH.1 e he) (by omega), IH.2⟩
  | .mk code f (some lt) (some rt), c, l => by
    intro hc
    have hpow : 2 ^ (l + 1) = 2 * 2 ^ l := by rw [pow_succ]; omega
    have IHl := update_gather_spec lt (2 * c) (l + 1) (by omega)
    have IHr := update_gather_spec rt (2 * c + 1) (l + 1) (by omega)
    have hg : ((HuffNode.mk code f (some lt) (some rt)).update_codes c l).gather_leaves
        = (lt.update_codes (2 * c) (l + 1)).gather_leaves
          ++ (rt.update_codes (2 * c + 1) (l + 1)).gather_leaves := by
      simp [HuffNode.update_codes, HuffNode.gather_leaves]
    rw [hg]
    constructor
    · intro e he
      rcases List.mem_append.mp he with he | he
      · exact goodEntry_up (IHl.1 e he) (by omega)
      · exact goodEntry_up (IHr.1 e he) (by omega)
    · rw [List.pairwise_append]
      exact ⟨IHl.2, IHr.2, fun e1 he1 e2 he2 =>
        cross_freePair (IHl.1 e1 he1) (IHr.1 e2 he2)⟩

/-- `update_codes` relabels codes but leaves the leaf bytes unchanged. -/
theorem leafBytes_update : ∀ (t : HuffNode) (c l : Nat),
    leafBytes (t.update_codes c l) = leafBytes t
  | .mk code f none none, c, l => by
    simp [leafBytes, HuffNode.update_codes, HuffNode.gather_leaves]
  | .mk code f (some lt) none, c, l => by
    have IH := leafBytes_update lt (2 * c) (l + 1)
    simp only [leafBytes, HuffNode.update_codes, HuffNode.gather_leaves] at IH ⊢
    simpa using IH
  | .mk code f none (some rt), c, l => by
    have IH := leafBytes_update rt (2 * c + 1) (l + 1)
    simp only [leafBytes, HuffNode.update_codes, HuffNode.gather_leaves] at IH ⊢
    simpa using IH
  | .mk code f (some lt) (some rt), c, l => by
    have IHl := leafBytes_update lt (2 * c) (l + 1)
    have IHr := leafBytes_update rt (2 * c + 1) (l + 1)
    simp only [leafBytes, HuffNode.update_codes, HuffNode.gather_leaves] at IHl IHr ⊢
    simp [IHl, IHr]

/-- The leaves of a combination are the two leaf lists in order. -/
theorem leafBytes_combine (a b : HuffNode) :
    leafBytes (a.combine b) = leafBytes a ++ leafBytes b := by
  simp [leafBytes, HuffNode.combine, gather_leaves_internal]

/-- The merge loop on a singleton pool returns its element. -/
theorem buildLoop_singleton (fuel : Nat) (x : HuffNode) :
    buildLoop fuel [x] = some x := by
  cases fuel <;> simp [buildLoop]

/-- With fuel at least the pool size minus one, the tree built from a pool
carries exactly the pool's leaves, as a multiset. -/
theorem buildLoop_leaves : ∀ (fuel : Nat) (pool : List HuffNode),
    pool.length ≤ fuel + 1 → ∀ t, buildLoop fuel pool = some t →
      (leafBytes t).Perm (pool.map leafBytes).flatten := by
  intro fuel
  induction fuel with
  | zero =>
    intro pool hlen t ht
    cases pool with
    | nil => simp [buildLoop] at ht
    | cons x rest =>
      have hr : rest = [] := by
        simp only [List.length_cons] at hlen
        exact List.length_eq_zero.mp (by omega)
      subst hr
      simp only [buildLoop, List.head?] at ht
      rw [Option.some_inj] at ht
      subst ht
      simp
  | succ n ih =>
    intro pool hlen t ht
    rw [buildLoop] at ht
    by_cases hgt : pool.length > 1
    · rw [if_pos hgt] at ht
      have hslen : (sortNodes pool).length = pool.length := (sortNodes_perm pool).length_eq
      cases hs : sortNodes pool with
      | nil => rw [hs] at ht; exact absurd ht (by simp)
      | cons a r0 =>
        cases r0 with
        | nil => rw [hs] at ht; exact absurd ht (by simp)
        | cons b rest =>
          rw [hs] at ht
          have hrl : pool.length = rest.length + 2 := by
            rw [← hslen, hs]
            simp
          have hperm := ih (rest ++ [a.combine b])
            (by simp only [List.length_append, List.length_cons, List.length_nil]; omega) t ht
          have hpool : pool.Perm (a :: b :: rest) := hs ▸ (sortNodes_perm pool).symm
          refine hperm.trans ?_
          have h1 : ((rest ++ [a.combine b]).map leafBytes).flatten
              = (rest.map leafBytes).flatten ++ (leafBytes a ++ leafBytes b) := by
            simp [leafBytes_combine]
          rw [h1]
          refine (List.perm_append_comm).trans ?_
          have h2 : (pool.map leafBytes).flatten.Perm
              (((a :: b :: rest).map leafBytes).flatten) := (hpool.map leafBytes).flatten
          have h3 : ((a :: b :: rest).map leafBytes).flatten
              = leafBytes a ++ (leafBytes b ++ (rest.map leafBytes).flatten) := by
            simp
          rw [List.append_assoc, ← h3]
          exact h2.symm
    · rw [if_neg hgt] at ht
      cases pool with
      | nil => simp at ht
      | cons x rest =>
        have hr : rest = [] := by
          simp only [List.length_cons] at hgt
          exact List.length_eq_zero.mp (by omega)
        subst hr
        simp only [List.head?] at ht
        rw [Option.some_inj] at ht
        subst ht
        simp

/-- The leaf pool built from a table carries exactly the table's bytes. -/
theorem flatten_new_pool (l : List (Nat × Nat)) :
    ((l.map fun p => HuffNode.new p.1 p.2 0).map leafBytes).flatten = l.map Prod.fst := by
  induction l with
  | nil => rfl
  | cons p rest ih =>
    simp only [List.map_cons, List.flatten_cons, ih]
    have : leafBytes (HuffNode.new p.1 p.2 0) = [p.1] := by
      simp [leafBytes, HuffNode.new, HuffNode.gather_leaves]
    rw [this]
    rfl

/-- A pool of at least two nodes (with adequate fuel) always produces a
tree, and its root is internal. -/
theorem buildLoop_some_internal : ∀ (fuel : Nat) (pool : List HuffNode),
    2 ≤ pool.length → pool.length ≤ fuel + 1 →
      ∃ t, buildLoop fuel pool = some t ∧ t.is_leaf = false := by
  intro fuel
  induction fuel with
  | zero => intro pool h2 h1; omega
  | succ n ih =>
    intro pool h2 hlen
    have hgt : pool.length > 1 := by omega
    have hslen : (sortNodes pool).length = pool.length := (sortNodes_perm pool).length_eq
    cases hs : sortNodes pool with
    | nil => rw [hs] at hslen; simp at hslen; omega
    | cons a r0 =>
      cases r0 with
      | nil => rw [hs] at hslen; simp at hslen; omega
      | cons b rest =>
        have hrl : pool.length = rest.length + 2 := by
          rw [← hslen, hs]
          simp
        cases rest with
        | nil =>
          refine ⟨a.combine b, ?_, by simp [HuffNode.is_leaf, HuffNode.combine]⟩
          rw [buildLoop, if_pos hgt, hs]
          exact buildLoop_singleton n _
        | cons c0 rest0 =>
          simp only [List.length_cons] at hrl
          obtain ⟨t, ht, hleaf⟩ := ih ((c0 :: rest0) ++ [a.combine b])
            (by simp only [List.length_append, List.length_cons, List.length_nil]; omega)
            (by simp only [List.length_append, List.length_cons, List.length_nil]; omega)
          refine ⟨t, ?_, hleaf⟩
          rw [buildLoop, if_pos hgt, hs]
          exact ht

/-- On a table of at least two entries, `build_huff_tree` succeeds with an
internal root. -/
theorem build_huff_tree_internal (l : List (Nat × Nat)) (h2 : 2 ≤ l.length) :
    ∃ t, HuffNode.build_huff_tree l = some t ∧ t.is_leaf = false := by
  unfold HuffNode.build_huff_tree
  exact buildLoop_some_internal l.length _ (by simpa using h2) (by simp)

/-- C8: for a duplicate-free table of at least two bytes, the gathered
code table has exactly the table's bytes (one entry per byte), and no
entry's emitted bit string is a prefix of another entry's. -/
theorem c8_code_table_prefix_free (l : List (Nat × Nat)) (h2 : 2 ≤ l.length)
    (_hnd : (l.map Prod.fst).Nodup) :
    ((codeTableOf l).map Prod.fst).Perm (l.map Prod.fst)
    ∧ (codeTableOf l).Pairwise freePair := by
  obtain ⟨t, ht, _⟩ := build_huff_tree_internal l h2
  have hct : codeTableOf l = (t.update_codes 0 0).gather_leaves := by
    unfold codeTableOf
    rw [ht]
  constructor
  · rw [hct]
    have h1 : ((t.update_codes 0 0).gather_leaves).map Prod.fst
        = leafBytes (t.update_codes 0 0) := rfl
    rw [h1, leafBytes_update]
    have hl := buildLoop_leaves l.length (l.map fun p => HuffNode.new p.1 p.2 0)
      (by simp) t (by rw [← ht]; rfl)
    rw [flatten_new_pool] at hl
    exact hl
  · rw [hct]
    exact (update_gather_spec t 0 0 (by simp)).2

/-- Witness for C8 on the table of the spec's concrete `AAABBC` example. -/
theorem c8_code_table_prefix_free_witness :
    (2 ≤ ([(65, 3), (66, 2), (67, 1)] : List (Nat × Nat)).length
      ∧ (([(65, 3), (66, 2), (67, 1)] : List (Nat × Nat)).map Prod.fst).Nodup)
    ∧ (((codeTableOf [(65, 3), (66, 2), (67, 1)]).map Prod.fst).Perm
        (([(65, 3), (66, 2), (67, 1)] : List (Nat × Nat)).map Prod.fst)
      ∧ (codeTableOf [(65, 3), (66, 2), (67, 1)]).Pairwise freePair) :=
  ⟨⟨by decide, by decide⟩,
    c8_code_table_prefix_free [(65, 3), (66, 2), (67, 1)] (by decide) (by decide)⟩

/-- `update_codes` preserves the tree shape, in particular leafness. -/
theorem update_is_leaf : ∀ (t : HuffNode) (c l : Nat),
    (t.update_codes c l).is_leaf = t.is_leaf := by
  intro t c l
  cases t with
  | mk code f left right =>
    cases left <;> cases right <;> simp [HuffNode.update_codes, HuffNode.is_leaf]

/-- `search_tree` on any leaf returns its byte at the unmoved cursor. -/
theorem search_tree_of_is_leaf {u : HuffNode} (h : u.is_leaf = true)
    (bv : List Bool) (bits : Nat) :
    u.search_tree bv bits = some (u.byteOf, bits) := by
  cases u with
  | mk code f left right =>
    simp only [HuffNode.is_leaf, Bool.and_eq_true, Option.isNone_iff_eq_none] at h
    rw [h.1, h.2]
    simp [HuffNode.search_tree, HuffNode.byteOf, HuffNode.codeOf]

/-- Unfolding equation for `search_tree` at a left-only node. -/
theorem search_tree_node_left (code : HuffCode) (f : Nat) (lt : HuffNode)
    (bv : List Bool) (bits : Nat) :
    (HuffNode.mk code f (some lt) none).search_tree bv bits
      = match bv.get? bits with
        | some b => if b then none else lt.search_tree bv (bits + 1)
        | none => none := by
  simp [HuffNode.search_tree]

/-- Unfolding equation for `search_tree` at a right-only node. -/
theorem search_tree_node_right (code : HuffCode) (f : Nat) (rt : HuffNode)
    (bv : List Bool) (bits : Nat) :
    (HuffNode.mk code f none (some rt)).search_tree bv bits
      = match bv.get? bits with
        | some b => if b then rt.search_tree bv (bits + 1) else none
        | none => none := by
  simp [HuffNode.search_tree]

/-- Unfolding equation for `search_tree` at a two-child node. -/
theorem search_tree_node_both (code : HuffCode) (f : Nat) (lt rt : HuffNode)
    (bv : List Bool) (bits : Nat) :
    (HuffNode.mk code f (some lt) (some rt)).search_tree bv bits
      = match bv.get? bits with
        | some b => if b then rt.search_tree bv (bits + 1) else lt.search_tree bv (bits + 1)
        | none => none := by
  simp [HuffNode.search_tree]

/-- A successful search never moves the cursor backwards. -/
theorem search_tree_ge : ∀ (t : HuffNode) (bv : List Bool) (bits b bits2 : Nat),
    t.search_tree bv bits = some (b, bits2) → bits ≤ bits2
  | .mk code f none none, bv, bits, b, bits2 => by
    intro h
    rw [search_tree_leaf] at h
    rw [Option.some_inj] at h
    simp only [Prod.mk.injEq] at h
    omega
  | .mk code f (some lt) none, bv, bits, b, bits2 => by
    intro h
    rw [search_tree_node_left] at h
    cases hbit : bv.get? bits with
    | none => rw [hbit] at h; simp at h
    | some bit =>
      rw [hbit] at h
      cases bit with
      | true => simp at h
      | false =>
        simp only [Bool.false_eq_true, if_false] at h
        have := search_tree_ge lt bv (bits + 1) b bits2 h
        omega
  | .mk code f none (some rt), bv, bits, b, bits2 => by
    intro h
    rw [search_tree_node_right] at h
    cases hbit : bv.get? bits with
    | none => rw [hbit] at h; simp at h
    | some bit =>
      rw [hbit] at h
      cases bit with
      | true =>
        simp only [if_true] at h
        have := search_tree_ge rt bv (bits + 1) b bits2 h
        omega
      | false => simp at h
  | .mk code f (some lt) (some rt), bv, bits, b, bits2 => by
    intro h
    rw [search_tree_node_both] at h
    cases hbit : bv.get? bits with
    | none => rw [hbit] at h; simp at h
    | some bit =>
      rw [hbit] at h
      cases bit with
      | true =>
        simp only [if_true] at h
        have := search_tree_ge rt bv (bits + 1) b bits2 h
        omega
      | false =>
        simp only [Bool.false_eq_true, if_false] at h
        have := search_tree_ge lt bv (bits + 1) b bits2 h
        omega

/-- A successful search from an internal node strictly advances the
cursor. -/
theorem search_tree_gt (t : HuffNode) (hleaf : t.is_leaf = false)
    (bv : List Bool) (bits b bits2 : Nat)
    (h : t.search_tree bv bits = some (b, bits2)) : bits < bits2 := by
  cases t with
  | mk code f left right =>
    cases left with
    | none =>
      cases right with
      | none => simp [HuffNode.is_leaf] at hleaf
      | some rt =>
        rw [search_tree_node_right] at h
        cases hbit : bv.get? bits with
        | none => rw [hbit] at h; simp at h
        | some bit =>
          rw [hbit] at h
          cases bit with
          | true =>
            simp only [if_true] at h
            have := search_tree_ge rt bv (bits + 1) b bits2 h
            omega
          | false => simp at h
    | some lt =>
      cases right with
      | none =>
        rw [search_tree_node_left] at h
        cases hbit : bv.get? bits with
        | none => rw [hbit] at h; simp at h
        | some bit =>
          rw [hbit] at h
          cases bit with
          | true => simp at h
          | false =>
            simp only [Bool.false_eq_true, if_false] at h
            have := search_tree_ge lt bv (bits + 1) b bits2 h
            omega
      | some rt =>
        rw [search_tree_node_both] at h
        cases hbit : bv.get? bits with
        | none => rw [hbit] at h; simp at h
        | some bit =>
          rw [hbit] at h
          cases bit with
          | true =>
            simp only [if_true] at h
            have := search_tree_ge rt bv (bits + 1) b bits2 h
            omega
          | false =>
            simp only [Bool.false_eq_true, if_false] at h
            have := search_tree_ge lt bv (bits + 1) b bits2 h
            omega

/-- A search whose result cursor stays within the first `n` bits reads
only positions below `n`, so it behaves identically on any bit
sequence agreeing there. -/
theorem search_tree_agree (s1 s2 : List Bool) (n : Nat)
    (hag : ∀ i, i < n → s1.get? i = s2.get? i) :
    ∀ (t : HuffNode) (bits b bits2 : Nat),
      t.search_tree s1 bits = some (b, bits2) → bits2 ≤ n →
        t.search_tree s2 bits = some (b, bits2)
  | .mk code f none none, bits, b, bits2 => by
    intro h _
    rw [search_tree_leaf] at h ⊢
    exact h
  | .mk code f (some lt) none, bits, b, bits2 => by
    intro h hn
    rw [search_tree_node_left] at h ⊢
    cases hbit : s1.get? bits with
    | none => rw [hbit] at h; simp at h
    | some bit =>
      rw [hbit] at h
      cases bit with
      | true => simp at h
      | false =>
        simp only [Bool.false_eq_true, if_false] at h
        have hge := search_tree_ge lt s1 (bits + 1) b bits2 h
        have hbits : bits < n := by omega
        have h2 : s2.get? bits = some false := by rw [← hag bits hbits, hbit]
        rw [h2]
        simp only [Bool.false_eq_true, if_false]
        exact search_tree_agree s1 s2 n hag lt (bits + 1) b bits2 h hn
  | .mk code f none (some rt), bits, b, bits2 => by
    intro h hn
    rw [search_tree_node_right] at h ⊢
    cases hbit : s1.get? bits with
    | none => rw [hbit] at h; simp at h
    | some bit =>
      rw [hbit] at h
      cases bit with
      | false => simp at h
      | true =>
        simp only [if_true] at h
        have hge := search_tree_ge rt s1 (bits + 1) b bits2 h
        have hbits : bits < n := by omega
        have h2 : s2.get? bits = some true := by rw [← hag bits hbits, hbit]
        rw [h2]
        simp only [if_true]
        exact search_tree_agree s1 s2 n hag rt (bits + 1) b bits2 h hn
  | .mk code f (some lt) (some rt), bits, b, bits2 => by
    intro h hn
    rw [search_tree_node_both] at h ⊢
    cases hbit : s1.get? bits with
    | none => rw [hbit] at h; simp at h
    | some bit =>
      rw [hbit] at h
      cases bit with
      | true =>
        simp only [if_true] at h
        have hge := search_tree_ge rt s1 (bits + 1) b bits2 h
        have hbits : bits < n := by omega
        have h2 : s2.get? bits = some true := by rw [← hag bits hbits, hbit]
        rw [h2]
        simp only [if_true]
        exact search_tree_agree s1 s2 n hag rt (bits + 1) b bits2 h hn
      | false =>
        simp only [Bool.false_eq_true, if_false] at h
        have hge := search_tree_ge lt s1 (bits + 1) b bits2 h
        have hbits : bits < n := by omega
        have h2 : s2.get? bits = some false := by rw [← hag bits hbits, hbit]
        rw [h2]
        simp only [Bool.false_eq_true, if_false]
        exact search_tree_agree s1 s2 n hag lt (bits + 1) b bits2 h hn

/-- The decode loop's stopping condition at cursor `bits`: the search
fails, or succeeds with a cursor beyond the declared bit length `n`. -/
def stopsAt (t : HuffNode) (s : List Bool) (n bits : Nat) : Prop :=
  t.search_tree s bits = none
    ∨ ∃ b c2, t.search_tree s bits = some (b, c2) ∧ n < c2

/-- From an internal node at or past the declared length, every search
stops. -/
theorem stopsAt_of_ge (t : HuffNode) (hleaf : t.is_leaf = false)
    (s : List Bool) (n bits : Nat) (h : n ≤ bits) : stopsAt t s n bits := by
  unfold stopsAt
  cases hres : t.search_tree s bits with
  | none => exact Or.inl rfl
  | some bc =>
    obtain ⟨b, c2⟩ := bc
    have := search_tree_gt t hleaf s bits b c2 hres
    exact Or.inr ⟨b, c2, rfl, by omega⟩

/-- Below the declared length, stopping transfers between bit sequences
that agree on the first `n` positions. -/
theorem search_tree_stops (s1 s2 : List Bool) (n : Nat)
    (hag : ∀ i, i < n → s1.get? i = s2.get? i) :
    ∀ (t : HuffNode), t.is_leaf = false → ∀ bits, bits ≤ n →
      stopsAt t s1 n bits → stopsAt t s2 n bits
  | .mk code f none none => by
    intro hleaf
    simp [HuffNode.is_leaf] at hleaf
  | .mk code f (some lt) none => by
    intro _ bits hbn hstop
    rcases Nat.lt_or_ge bits n with hlt | hge
    · cases hbit : s1.get? bits with
      | none =>
        have h2 : s2.get? bits = none := by rw [← hag bits hlt, hbit]
        unfold stopsAt
        rw [search_tree_node_left, h2]
        exact Or.inl rfl
      | some bit =>
        have h2 : s2.get? bits = some bit := by rw [← hag bits hlt, hbit]
        cases bit with
        | true =>
          unfold stopsAt
          rw [search_tree_node_left, h2]
          exact Or.inl (by simp)
        | false =>
          by_cases hu : lt.is_leaf
          · unfold stopsAt at hstop
            rw [search_tree_node_left, hbit] at hstop
            simp only [Bool.false_eq_true, if_false,
              search_tree_of_is_leaf hu] at hstop
            rcases hstop with hstop | ⟨b, c2, hbc, hc2⟩
            · simp at hstop
            · rw [Option.some_inj] at hbc
              simp only [Prod.mk.injEq] at hbc
              omega
          · have hul : lt.is_leaf = false := Bool.not_eq_true lt.is_leaf ▸ hu
            have hstop2 : stopsAt lt s1 n (bits + 1) := by
              unfold stopsAt at hstop ⊢
              rw [search_tree_node_left, hbit] at hstop
              simpa using hstop
            have := search_tree_stops s1 s2 n hag lt hul (bits + 1) (by omega) hstop2
            unfold stopsAt at this ⊢
            rw [search_tree_node_left, h2]
            simpa using this
    · exact stopsAt_of_ge _ (by simp [HuffNode.is_leaf]) s2 n bits hge
  | .mk code f none (some rt) => by
    intro _ bits hbn hstop
    rcases Nat.lt_or_ge bits n with hlt | hge
    · cases hbit : s1.get? bits with
      | none =>
        have h2 : s2.get? bits = none := by rw [← hag bits hlt, hbit]
        unfold stopsAt
        rw [search_tree_node_right, h2]
        exact Or.inl rfl
      | some bit =>
        have h2 : s2.get? bits = some bit := by rw [← hag bits hlt, hbit]
        cases bit with
        | false =>
          unfold stopsAt
          rw [search_tree_node_right, h2]
          exact Or.inl (by simp)
        | true =>
          by_cases hu : rt.is_leaf
          · unfold stopsAt at hstop
            rw [search_tree_node_right, hbit] at hstop
            simp only [if_true, search_tree_of_is_leaf hu] at hstop
            rcases hstop with hstop | ⟨b, c2, hbc, hc2⟩
            · simp at hstop
            · rw [Option.some_inj] at hbc
              simp only [Prod.mk.injEq] at hbc
              omega
          · have hul : rt.is_leaf = false := Bool.not_eq_true rt.is_leaf ▸ hu
            have hstop2 : stopsAt rt s1 n (bits + 1) := by
              unfold stopsAt at hstop ⊢
              rw [search_tree_node_right, hbit] at hstop
              simpa using hstop
            have := search_tree_stops s1 s2 n hag rt hul (bits + 1) (by omega) hstop2
            unfold stopsAt at this ⊢
            rw [search_tree_node_right, h2]
            simpa using this
    · exact stopsAt_of_ge _ (by simp [HuffNode.is_leaf]) s2 n bits hge
  | .mk code f (some lt) (some rt) => by
    intro _ bits hbn hstop
    rcases Nat.lt_or_ge bits n with hlt | hge
    · cases hbit : s1.get? bits with
      | none =>
        have h2 : s2.get? bits = none := by rw [← hag bits hlt, hbit]
        unfold stopsAt
        rw [search_tree_node_both, h2]
        exact Or.inl rfl
      | some bit =>
        have h2 : s2.get? bits = some bit := by rw [← hag bits hlt, hbit]
        cases bit with
        | true =>
          by_cases hu : rt.is_leaf
          · unfold stopsAt at hstop
            rw [search_tree_node_both, hbit] at hstop
            simp only [if_true, search_tree_of_is_leaf hu] at hstop
            rcases hstop with hstop | ⟨b, c2, hbc, hc2⟩
            · simp at hstop
            · rw [Option.some_inj] at hbc
              simp only [Prod.mk.injEq] at hbc
              omega
          · have hul : rt.is_leaf = false := Bool.not_eq_true rt.is_leaf ▸ hu
            have hstop2 : stopsAt rt s1 n (bits + 1) := by
              unfold stopsAt at hstop ⊢
              rw [search_tree_node_both, hbit] at hstop
              simpa using hstop
            have := search_tree_stops s1 s2 n hag rt hul (bits + 1) (by omega) hstop2
            unfold stopsAt at this ⊢
            rw [search_tree_node_both, h2]
            simpa using this
        | false =>
          by_cases hu : lt.is_leaf
          · unfold stopsAt at hstop
            rw [search_tree_node_both, hbit] at hstop
            simp only [Bool.false_eq_true, if_false,
              search_tree_of_is_leaf hu] at hstop
            rcases hstop with hstop | ⟨b, c2, hbc, hc2⟩
            · simp at hstop
            · rw [Option.some_inj] at hbc
              simp only [Prod.mk.injEq] at hbc
              omega
          · have hul : lt.is_leaf = false := Bool.not_eq_true lt.is_leaf ▸ hu
            have hstop2 : stopsAt lt s1 n (bits + 1) := by
              unfold stopsAt at hstop ⊢
              rw [search_tree_node_both, hbit] at hstop
              simpa using hstop
            have := search_tree_stops s1 s2 n hag lt hul (bits + 1) (by omega) hstop2
            unfold stopsAt at this ⊢
            rw [search_tree_node_both, h2]
            simpa using this
    · exact stopsAt_of_ge _ (by simp [HuffNode.is_leaf]) s2 n bits hge

/-- The decode loop from an internal root emits the same bytes on any two
bit sequences agreeing on the first `n` positions: every emitted byte's
code lies inside the first `n` bits, and past them the loop stops
without emitting on both sequences. -/
theorem decodeLoop_agree (t : HuffNode) (hleaf : t.is_leaf = false)
    (s1 s2 : List Bool) (n : Nat) (hag : ∀ i, i < n → s1.get? i = s2.get? i) :
    ∀ (fuel bits : Nat), bits ≤ n →
      decodeLoop t s1 n fuel bits = decodeLoop t s2 n fuel bits := by
  intro fuel
  induction fuel with
  | zero => intro bits _; rfl
  | succ m ih =>
    intro bits hb
    rw [decodeLoop, decodeLoop]
    cases hs1 : t.search_tree s1 bits with
    | none =>
      have hstop := search_tree_stops s1 s2 n hag t hleaf bits hb (Or.inl hs1)
      rcases hstop with h2 | ⟨b, c2, h2, hc2⟩
      · rw [h2]
      · rw [h2]
        simp [hc2]
    | some bc =>
      obtain ⟨b, c2⟩ := bc
      by_cases hc : n < c2
      · have hstop := search_tree_stops s1 s2 n hag t hleaf bits hb
          (Or.inr ⟨b, c2, hs1, hc⟩)
        rcases hstop with h2 | ⟨b2, c3, h2, hc3⟩
        · rw [h2]
          simp [hc]
        · rw [h2]
          simp [hc, hc3]
      · have hc2n : c2 ≤ n := by omega
        have h2 := search_tree_agree s1 s2 n hag t bits b c2 hs1 hc2n
        rw [h2]
        simp only [hc, if_false]
        rw [ih c2 hc2n]

/-- C9: for a tree rebuilt from a table of at least two entries (hence
with at least two leaves), the decode loop's output is determined
solely by the first `n` declared payload bits: once the cursor reaches
or passes `n` the loop stops, so padding bits never contribute an
emitted byte. -/
theorem c9_decode_bounded_by_declared_bits (l : List (Nat × Nat)) (t : HuffNode)
    (h2 : 2 ≤ l.length) (ht : HuffNode.build_huff_tree l = some t)
    (n : Nat) (s1 s2 : List Bool) (htake : s1.take n = s2.take n) :
    ∀ fuel, decodeLoop (t.update_codes 0 0) s1 n fuel 0
      = decodeLoop (t.update_codes 0 0) s2 n fuel 0 := by
  obtain ⟨t2, ht2, hleaf2⟩ := build_huff_tree_internal l h2
  rw [ht] at ht2
  rw [Option.some_inj] at ht2
  have hleaf : (t.update_codes 0 0).is_leaf = false := by
    rw [update_is_leaf, ht2]
    exact hleaf2
  have hag : ∀ i, i < n → s1.get? i = s2.get? i := by
    intro i hi
    rw [List.get?_eq_getElem?, List.get?_eq_getElem?,
      ← List.getElem?_take_of_lt (l := s1) hi, htake, List.getElem?_take_of_lt hi]
  intro fuel
  exact decodeLoop_agree _ hleaf s1 s2 n hag fuel 0 (Nat.zero_le n)

/-- Witness for C9: a two-symbol tree, declared bit length 2, and two bit
sequences agreeing on their first 2 bits but differing afterwards. -/
theorem c9_decode_bounded_by_declared_bits_witness :
    (2 ≤ ([(0, 1), (1, 1)] : List (Nat × Nat)).length
      ∧ HuffNode.build_huff_tree [(0, 1), (1, 1)]
        = some (HuffNode.mk ⟨0, 0, 0⟩ 2 (some (HuffNode.mk ⟨0, 0, 0⟩ 1 none none))
            (some (HuffNode.mk ⟨1, 0, 0⟩ 1 none none)))
      ∧ ([false, true, false] : List Bool).take 2 = ([false, true, true] : List Bool).take 2)
    ∧ ∀ fuel,
      decodeLoop ((HuffNode.mk ⟨0, 0, 0⟩ 2 (some (HuffNode.mk ⟨0, 0, 0⟩ 1 none none))
          (some (HuffNode.mk ⟨1, 0, 0⟩ 1 none none))).update_codes 0 0)
        [false, true, false] 2 fuel 0
      = decodeLoop ((HuffNode.mk ⟨0, 0, 0⟩ 2 (some (HuffNode.mk ⟨0, 0, 0⟩ 1 none none))
          (some (HuffNode.mk ⟨1, 0, 0⟩ 1 none none))).update_codes 0 0)
        [false, true, true] 2 fuel 0 :=
  ⟨⟨by decide, rfl, rfl⟩,
    c9_decode_bounded_by_declared_bits [(0, 1), (1, 1)] _ (by decide) rfl 2
      [false, true, false] [false, true, true] rfl⟩
